import Mathlib

/-!
Shallow embedding of the rustea runtime (src/lib.rs): the Message/Command
data model, the Dispatcher main loop (the function run and its helper
called at startup), the Event Source thread, the Command Executor thread
and the per-Command workers.  Invocations of the application callbacks
(init, update, view) and sends on the command channel are recorded as
trace events, so that counting and ordering claims become statements
about traces.  Commands are kept opaque (a type parameter): the
Dispatcher only ever moves them onto the command channel.
-/

/-- Messages received by the Dispatcher, classified the way the dispatch
loop classifies them with its dynamic-type tests (is QuitMessage, is
BatchMessage, anything else).  The `command` module defining the two
control types is not under src/, so their shape is modelled from the
spec: Quit is a payload-free sentinel and Batch carries an ordered
sequence of Commands (the dispatch loop iterates `batch.0` in order).
`μ` is the type of application-defined message payloads and `κ` the type
of Commands, both opaque to the runtime. -/
inductive Msg (μ κ : Type) where
  | quit
  | batch (cmds : List κ)
  | user (payload : μ)
deriving DecidableEq

/-- Recognizer for the Quit sentinel, `msg.is::<QuitMessage>()`. -/
def Msg.isQuit : Msg μ κ → Bool
  | Msg.quit => true
  | _ => false

/-- Recognizer for the Batch control message, `msg.is::<BatchMessage>()`. -/
def Msg.isBatch : Msg μ κ → Bool
  | Msg.batch _ => true
  | _ => false

/-- Recognizer for application-defined (non-control) messages. -/
def Msg.isUser : Msg μ κ → Bool
  | Msg.user _ => true
  | _ => false

/-- Trace events recorded by the embedded runtime: invocation of the
application's init step, a send on the command channel, invocation of
update with the message it is handed, and invocation of view with the
state it renders. -/
inductive Event (σ μ κ : Type) where
  | callInit
  | enqueueCmd (c : κ)
  | callUpdate (s : σ) (m : Msg μ κ)
  | render (s : σ)
deriving DecidableEq

/-- True on view-invocation events. -/
def Event.isRender : Event σ μ κ → Bool
  | Event.render _ => true
  | _ => false

/-- True on update-invocation events. -/
def Event.isUpdateCall : Event σ μ κ → Bool
  | Event.callUpdate _ _ => true
  | _ => false

/-- True on init-invocation events. -/
def Event.isInitCall : Event σ μ κ → Bool
  | Event.callInit => true
  | _ => false

/-- True on command-channel sends. -/
def Event.isEnqueue : Event σ μ κ → Bool
  | Event.enqueueCmd _ => true
  | _ => false

/-- True on events that are update or view invocations: the sub-trace of
these events is where the spec's strict alternation lives. -/
def Event.isUV (e : Event σ μ κ) : Bool :=
  e.isUpdateCall || e.isRender

/-- The App trait of src/lib.rs: init (defaulted to yield no Command in
the source, but any implementation is allowed, so it stays a field) and
update, which in Rust mutates the model in place and optionally yields a
Command — here explicit state passing, returning the new state and the
optional Command.  The trait's view method takes the state read-only and
only writes to the output sink; the embedding records each view
invocation as a `render` event carrying the state it is shown, so view
needs no field of its own. -/
structure App (σ μ κ : Type) where
  init : σ → Option κ
  update : σ → Msg μ κ → σ × Option κ

/-- Command-channel sends performed for an optional Command: the
`if let Some(cmd) = ... { cmd_tx.send(cmd) }` pattern of src/lib.rs. -/
def enqOpt : Option κ → List (Event σ μ κ)
  | some c => [Event.enqueueCmd c]
  | none => []

/-- One iteration of the Dispatcher loop body (src/lib.rs lines 130-142)
on a received message.  Quit breaks the loop (`none`).  Batch sends every
contained Command on the command channel in the sequence's order and then
renders the unchanged state.  Any other message is handed to update; if
update yields a Command it is enqueued; then the (possibly mutated) state
is rendered.  `some (s1, evts)` means the loop continues with state `s1`
after the recorded events. -/
def step (app : App σ μ κ) (s : σ) : Msg μ κ → Option (σ × List (Event σ μ κ))
  | Msg.quit => none
  | Msg.batch cs => some (s, cs.map Event.enqueueCmd ++ [Event.render s])
  | Msg.user u =>
    let r := app.update s (Msg.user u)
    some (r.1, Event.callUpdate s (Msg.user u) :: (enqOpt r.2 ++ [Event.render r.1]))

/-- The Dispatcher main loop (src/lib.rs lines 129-143) run over the
sequence of messages the message channel delivers.  Returns the recorded
trace and `some ()` if the loop broke on Quit, `none` if it consumed the
whole sequence and is still blocked in `msg_rx.recv()`. -/
def runLoop (app : App σ μ κ) : σ → List (Msg μ κ) → List (Event σ μ κ) × Option Unit
  | _, [] => ([], none)
  | s, m :: rest =>
    match step app s m with
    | none => ([], some ())
    | some (s1, evts) =>
      (evts ++ (runLoop app s1 rest).1, (runLoop app s1 rest).2)

/-- The startup helper of src/lib.rs (lines 148-152): invoke the
application's init step and, if it yields a Command, send it on the
command channel.  The `callInit` event records the invocation. -/
def initPhase (app : App σ μ κ) (s : σ) : List (Event σ μ κ) :=
  Event.callInit :: enqOpt (app.init s)

/-- Trace of run (src/lib.rs lines 94-146) on the sequence of messages
delivered by the message channel: the startup helper, one unconditional
render of the initial state (line 127), then the main loop. -/
def runTrace (app : App σ μ κ) (s : σ) (msgs : List (Msg μ κ)) : List (Event σ μ κ) :=
  initPhase app s ++ Event.render s :: (runLoop app s msgs).1

/-- Return value of run: `none` while the loop is still blocked waiting
for a further message, and `some (Except.ok ())` once the loop has broken
on Quit — the only return expression run ever reaches is `Ok(())` on
line 145.  `ε` stands for the io error type of the Rust signature. -/
def runResult (ε : Type) (app : App σ μ κ) (s : σ) (msgs : List (Msg μ κ)) :
    Option (Except ε Unit) :=
  (runLoop app s msgs).2.map (fun _ => Except.ok ())

/-- Raw events yielded by the input provider (crossterm `read()`), a
tagged union of key events (`χ`), pointer events (`π`) and resize events
carrying the new width and height (u16 values, carried through without
arithmetic, so plain Nat). -/
inductive RawEvent (χ π : Type) where
  | key (e : χ)
  | mouse (e : π)
  | resize (x y : Nat)
deriving DecidableEq

/-- Payloads of the Messages the Event Source produces: key and pointer
events boxed unchanged, and the ResizeEvent struct of src/lib.rs line 63
carrying the two dimensions. -/
inductive InputPayload (χ π : Type) where
  | keyEvent (e : χ)
  | mouseEvent (e : π)
  | resizeEvent (x y : Nat)
deriving DecidableEq

/-- The Event Source translation (src/lib.rs lines 104-110): each match
arm boxes the raw event as a Message and sends it — key and pointer
events unchanged, a resize event as `ResizeEvent(x, y)`. -/
def eventSourceMsg : RawEvent χ π → Msg (InputPayload χ π) κ
  | RawEvent.key e => Msg.user (InputPayload.keyEvent e)
  | RawEvent.mouse e => Msg.user (InputPayload.mouseEvent e)
  | RawEvent.resize x y => Msg.user (InputPayload.resizeEvent x y)

/-- The Event Source loop over the sequence of raw events the input
provider yields: the Messages it places on the message channel, in
order. -/
def eventSource : List (RawEvent χ π) → List (Msg (InputPayload χ π) κ)
  | [] => []
  | r :: rest => eventSourceMsg r :: eventSource rest

/-- A per-Command worker (src/lib.rs lines 119-123), given the Command's
result: the Messages it places on the message channel.  `some m` sends
exactly `m`; `none` sends nothing. -/
def workerSends : Option ν → List ν
  | some m => [m]
  | none => []

/-- Executor-side events: handing one Command to a fresh worker. -/
inductive ExecEvent (κ : Type) where
  | spawnWorker (c : κ)
deriving DecidableEq

/-- The Command Executor loop (src/lib.rs lines 112-124) over the
sequence of Commands received from the command channel: each received
Command is immediately handed to a newly spawned worker, and the loop
continues; when the channel is exhausted the loop ends. -/
def commandExecutor : List κ → List (ExecEvent κ)
  | [] => []
  | c :: rest => ExecEvent.spawnWorker c :: commandExecutor rest

/-- Spec-side alternation pattern for a block of non-control messages:
per message, one update invocation immediately followed by one view
invocation of the updated state ("update then view, never interleaved
with another Message's processing").  Written from the spec's words, to
be compared with the trace the source-derived loop produces. -/
def specAlternation (app : App σ μ κ) : σ → List μ → List (Event σ μ κ)
  | _, [] => []
  | s, u :: rest =>
    let r := app.update s (Msg.user u)
    Event.callUpdate s (Msg.user u) ::
      Event.render r.1 :: specAlternation app r.1 rest

/-- A concrete application used to instantiate theorems with hypotheses:
state is a Nat counter, every update increments it and yields no
Command, init yields no Command. -/
def testApp : App Nat Nat Nat where
  init := fun _ => none
  update := fun s _ => (s + 1, none)

/-- A concrete application whose init yields a Command. -/
def testAppInitCmd : App Nat Nat Nat where
  init := fun _ => some 42
  update := fun s _ => (s, none)

theorem runLoop_quit (app : App σ μ κ) (s : σ) (rest : List (Msg μ κ)) :
    runLoop app s (Msg.quit :: rest) = ([], some ()) := rfl

theorem runLoop_batch (app : App σ μ κ) (s : σ) (cs : List κ) (rest : List (Msg μ κ)) :
    runLoop app s (Msg.batch cs :: rest) =
      ((cs.map Event.enqueueCmd ++ [Event.render s]) ++ (runLoop app s rest).1,
       (runLoop app s rest).2) := rfl

theorem runLoop_user (app : App σ μ κ) (s s1 : σ) (u : μ) (co : Option κ)
    (hu : app.update s (Msg.user u) = (s1, co)) (rest : List (Msg μ κ)) :
    runLoop app s (Msg.user u :: rest) =
      ((Event.callUpdate s (Msg.user u) :: (enqOpt co ++ [Event.render s1]))
         ++ (runLoop app s1 rest).1,
       (runLoop app s1 rest).2) := by
  simp [runLoop, step, hu]

theorem enqOpt_countP_not_enq (p : Event σ μ κ → Bool)
    (hp : ∀ c : κ, p (Event.enqueueCmd c) = false) (o : Option κ) :
    (enqOpt o : List (Event σ μ κ)).countP p = 0 := by
  cases o <;> simp [enqOpt, List.countP_cons, hp]

theorem enqOpt_filter_not_enq (p : Event σ μ κ → Bool)
    (hp : ∀ c : κ, p (Event.enqueueCmd c) = false) (o : Option κ) :
    (enqOpt o : List (Event σ μ κ)).filter p = [] := by
  cases o <;> simp [enqOpt, List.filter_cons, hp]

theorem mapEnq_countP_not_enq (p : Event σ μ κ → Bool)
    (hp : ∀ c : κ, p (Event.enqueueCmd c) = false) (cs : List κ) :
    ((cs.map Event.enqueueCmd : List (Event σ μ κ))).countP p = 0 := by
  induction cs with
  | nil => rfl
  | cons c cs ih => simp [List.countP_cons, hp, ih]

theorem mapEnq_filter_not_enq (p : Event σ μ κ → Bool)
    (hp : ∀ c : κ, p (Event.enqueueCmd c) = false) (cs : List κ) :
    ((cs.map Event.enqueueCmd : List (Event σ μ κ))).filter p = [] := by
  induction cs with
  | nil => rfl
  | cons c cs ih => simp [List.filter_cons, hp, ih]

theorem mapEnq_filter_enq (cs : List κ) :
    ((cs.map Event.enqueueCmd : List (Event σ μ κ))).filter Event.isEnqueue
      = cs.map Event.enqueueCmd := by
  induction cs with
  | nil => rfl
  | cons c cs ih => simp [List.filter_cons, Event.isEnqueue, ih]

theorem runLoop_user_filter_UV (app : App σ μ κ) (us : List μ) :
    ∀ s : σ, ((runLoop app s (us.map Msg.user)).1).filter Event.isUV
      = specAlternation app s us := by
  induction us with
  | nil => intro s; rfl
  | cons u us ih =>
    intro s
    rcases hu : app.update s (Msg.user u) with ⟨s1, co⟩
    rw [List.map_cons, runLoop_user app s s1 u co hu]
    cases co <;>
      simp [specAlternation, hu, enqOpt, Event.isUV, Event.isRender,
        Event.isUpdateCall, List.filter_cons, List.filter_append, ih s1]

theorem specAlternation_countP_render (app : App σ μ κ) (us : List μ) :
    ∀ s : σ, (specAlternation app s us).countP Event.isRender = us.length := by
  induction us with
  | nil => intro s; rfl
  | cons u us ih =>
    intro s
    rcases hu : app.update s (Msg.user u) with ⟨s1, co⟩
    simp [specAlternation, hu, List.countP_cons, Event.isRender, ih s1]

theorem filter_UV_countP_render (l : List (Event σ μ κ)) :
    l.countP Event.isRender = (l.filter Event.isUV).countP Event.isRender := by
  induction l with
  | nil => rfl
  | cons e l ih =>
    cases e <;>
      simp [List.filter_cons, List.countP_cons, Event.isUV, Event.isRender,
        Event.isUpdateCall, ih]

theorem initPhase_countP_render (app : App σ μ κ) (s : σ) :
    (initPhase app s).countP Event.isRender = 0 := by
  simp [initPhase, List.countP_cons, Event.isRender,
    enqOpt_countP_not_enq Event.isRender (fun _ => rfl)]

/-- C1: for a run that processes N non-control Messages in the Running
state, the sub-trace of update and view invocations is exactly the
spec-side alternation pattern preceded by the initial render — one view
after Init and, per Message, one update immediately followed by its view
before the next Message — and view is invoked exactly N + 1 times in
total. -/
theorem dispatcher_view_count_and_alternation (app : App σ μ κ) (s0 : σ) (us : List μ) :
    (runTrace app s0 (us.map Msg.user)).filter Event.isUV
        = Event.render s0 :: specAlternation app s0 us ∧
    (runTrace app s0 (us.map Msg.user)).countP Event.isRender = us.length + 1 := by
  constructor
  · simp [runTrace, initPhase, List.filter_append, List.filter_cons,
      Event.isUV, Event.isRender, Event.isUpdateCall, Event.isInitCall,
      enqOpt_filter_not_enq Event.isUV (fun _ => rfl),
      runLoop_user_filter_UV app us s0]
  · rw [runTrace, List.countP_append, initPhase_countP_render,
      List.countP_cons_of_pos _ _ (by rfl),
      filter_UV_countP_render, runLoop_user_filter_UV app us s0,
      specAlternation_countP_render app us s0]
    omega

/-- C2: when the k-th received Message is the Quit sentinel (the k-1
preceding Messages are not Quit), the loop's trace and result do not
depend on anything delivered after the Quit, the loop terminates with a
break, and exactly k-1 renders happen in the loop (one per preceding
Message, none for the Quit itself) after Init's unconditional render. -/
theorem dispatcher_quit_terminates (app : App σ μ κ) (s0 : σ) (pre rest : List (Msg μ κ))
    (h : ∀ m ∈ pre, m.isQuit = false) :
    runLoop app s0 (pre ++ Msg.quit :: rest) = runLoop app s0 (pre ++ [Msg.quit]) ∧
    (runLoop app s0 (pre ++ Msg.quit :: rest)).2 = some () ∧
    ((runLoop app s0 (pre ++ Msg.quit :: rest)).1).countP Event.isRender = pre.length := by
  induction pre generalizing s0 with
  | nil => exact ⟨rfl, rfl, rfl⟩
  | cons m pre ih =>
    have hm : m.isQuit = false := h m (by simp)
    have hpre : ∀ x ∈ pre, x.isQuit = false := fun x hx => h x (by simp [hx])
    cases m with
    | quit => simp [Msg.isQuit] at hm
    | batch cs =>
      obtain ⟨ih1, ih2, ih3⟩ := ih s0 hpre
      refine ⟨?_, ?_, ?_⟩
      · simp only [List.cons_append, runLoop_batch, ih1]
      · simp only [List.cons_append, runLoop_batch, ih2]
      · simp only [List.cons_append, runLoop_batch]
        rw [List.countP_append, List.countP_append, ih3,
          mapEnq_countP_not_enq Event.isRender (fun _ => rfl)]
        simp [List.countP_cons, Event.isRender, List.length_cons]
        omega
    | user u =>
      rcases hu : app.update s0 (Msg.user u) with ⟨s1, co⟩
      obtain ⟨ih1, ih2, ih3⟩ := ih s1 hpre
      refine ⟨?_, ?_, ?_⟩
      · simp only [List.cons_append, runLoop_user app s0 s1 u co hu, ih1]
      · simp only [List.cons_append, runLoop_user app s0 s1 u co hu, ih2]
      · simp only [List.cons_append, runLoop_user app s0 s1 u co hu]
        rw [List.countP_cons_of_neg _ _ (by simp [Event.isRender]),
          List.countP_append, List.countP_append,
          enqOpt_countP_not_enq Event.isRender (fun _ => rfl), ih3]
        simp [List.countP_cons, Event.isRender, List.length_cons]
        omega

/-- Witness for C2 at a concrete application and message sequence. -/
theorem dispatcher_quit_terminates_witness :
    (∀ m ∈ ([Msg.user 5, Msg.batch [7]] : List (Msg Nat Nat)), m.isQuit = false) ∧
    (runLoop testApp 0 ([Msg.user 5, Msg.batch [7]] ++ Msg.quit :: [Msg.user 9])
        = runLoop testApp 0 ([Msg.user 5, Msg.batch [7]] ++ [Msg.quit]) ∧
      (runLoop testApp 0 ([Msg.user 5, Msg.batch [7]] ++ Msg.quit :: [Msg.user 9])).2 = some () ∧
      ((runLoop testApp 0 ([Msg.user 5, Msg.batch [7]] ++ Msg.quit :: [Msg.user 9])).1).countP
          Event.isRender
        = ([Msg.user 5, Msg.batch [7]] : List (Msg Nat Nat)).length) :=
  ⟨by decide,
    dispatcher_quit_terminates testApp 0 [Msg.user 5, Msg.batch [7]] [Msg.user 9] (by decide)⟩

/-- C3: a Batch message makes the Dispatcher send every contained
Command on the command channel, in the sequence's order, before any
later send; the Commands are opaque values here, so the sends cannot
depend on how any Command would later behave when executed. -/
theorem dispatcher_batch_enqueue_order (app : App σ μ κ) (s : σ) (cs : List κ)
    (rest : List (Msg μ κ)) :
    ((runLoop app s (Msg.batch cs :: rest)).1).filter Event.isEnqueue
      = cs.map Event.enqueueCmd ++ ((runLoop app s rest).1).filter Event.isEnqueue := by
  rw [runLoop_batch]
  simp only [List.filter_append, List.append_assoc]
  rw [mapEnq_filter_enq]
  simp [Event.isEnqueue]

/-- C4: processing a Batch message leaves the application state
unchanged, does not invoke update, renders the unchanged state exactly
once, and keeps the loop running (the step result is `some`, carrying
the same state). -/
theorem dispatcher_batch_frame (app : App σ μ κ) (s : σ) (cs : List κ) :
    step app s (Msg.batch cs) = some (s, cs.map Event.enqueueCmd ++ [Event.render s]) ∧
    (cs.map Event.enqueueCmd ++ [Event.render s] : List (Event σ μ κ)).countP
        Event.isUpdateCall = 0 ∧
    (cs.map Event.enqueueCmd ++ [Event.render s] : List (Event σ μ κ)).filter
        Event.isRender = [Event.render s] := by
  refine ⟨rfl, ?_, ?_⟩
  · rw [List.countP_append, mapEnq_countP_not_enq Event.isUpdateCall (fun _ => rfl)]
    simp [List.countP_cons, Event.isUpdateCall]
  · rw [List.filter_append, mapEnq_filter_not_enq Event.isRender (fun _ => rfl)]
    simp [List.filter_cons, Event.isRender]

theorem runLoop_countP_initCall (app : App σ μ κ) (msgs : List (Msg μ κ)) :
    ∀ s : σ, ((runLoop app s msgs).1).countP Event.isInitCall = 0 := by
  induction msgs with
  | nil => intro s; rfl
  | cons m rest ih =>
    intro s
    cases m with
    | quit => rfl
    | batch cs =>
      rw [runLoop_batch]
      simp only [List.countP_append,
        mapEnq_countP_not_enq Event.isInitCall (fun _ => rfl), ih s]
      simp [List.countP_cons, Event.isInitCall]
    | user u =>
      rcases hu : app.update s (Msg.user u) with ⟨s1, co⟩
      rw [runLoop_user app s s1 u co hu]
      simp only [List.countP_cons, List.countP_append,
        enqOpt_countP_not_enq Event.isInitCall (fun _ => rfl), ih s1]
      simp [Event.isInitCall]

/-- C5: at startup the trace is exactly: one invocation of the
application's init step, then the send of the Command init yielded (one
send if init yielded one, none otherwise — the two defining equations of
`enqOpt` are restated as conjuncts), then the unconditional render of
the initial state, and only then the events of the Running loop; init is
invoked exactly once in the whole run. -/
theorem dispatcher_startup_sequence (app : App σ μ κ) (s0 : σ) (msgs : List (Msg μ κ)) :
    runTrace app s0 msgs
      = Event.callInit :: (enqOpt (app.init s0)
          ++ Event.render s0 :: (runLoop app s0 msgs).1) ∧
    (runTrace app s0 msgs).countP Event.isInitCall = 1 ∧
    (∀ c : κ, enqOpt (some c) = ([Event.enqueueCmd c] : List (Event σ μ κ))) ∧
    enqOpt none = ([] : List (Event σ μ κ)) := by
  refine ⟨by simp [runTrace, initPhase], ?_, fun c => rfl, rfl⟩
  rw [runTrace, List.countP_append, initPhase,
    List.countP_cons_of_pos _ _ (by rfl),
    enqOpt_countP_not_enq Event.isInitCall (fun _ => rfl),
    List.countP_cons_of_neg _ _ (by simp [Event.isInitCall]),
    runLoop_countP_initCall app msgs s0]

/-- C6: the Event Source turns a resize report with dimensions (x, y)
into a ResizeEvent Message carrying exactly those dimensions, wraps key
and pointer events as Messages unchanged, and places each resulting
Message on the message channel in the order the raw events arrive. -/
theorem event_source_translation (raws : List (RawEvent χ π)) :
    (∀ x y : Nat, (eventSourceMsg (RawEvent.resize x y) : Msg (InputPayload χ π) κ)
        = Msg.user (InputPayload.resizeEvent x y)) ∧
    (∀ e : χ, (eventSourceMsg (RawEvent.key e) : Msg (InputPayload χ π) κ)
        = Msg.user (InputPayload.keyEvent e)) ∧
    (∀ e : π, (eventSourceMsg (RawEvent.mouse e) : Msg (InputPayload χ π) κ)
        = Msg.user (InputPayload.mouseEvent e)) ∧
    (eventSource raws : List (Msg (InputPayload χ π) κ)) = raws.map eventSourceMsg := by
  refine ⟨fun _ _ => rfl, fun _ => rfl, fun _ => rfl, ?_⟩
  induction raws with
  | nil => rfl
  | cons r rest ih => simp [eventSource, ih]

/-- C7: a worker whose Command yields `some m` places exactly the
Message `m` on the message channel, and a worker whose Command yields
`none` sends nothing — so feeding the Dispatcher the sends of such a
worker after any message sequence changes neither the trace (no extra
update or render) nor anything else. -/
theorem command_worker_sends (m : Msg μ κ) (app : App σ μ κ) (s0 : σ)
    (msgs : List (Msg μ κ)) :
    workerSends (some m) = [m] ∧
    workerSends (none : Option (Msg μ κ)) = [] ∧
    runTrace app s0 (msgs ++ workerSends (none : Option (Msg μ κ))) = runTrace app s0 msgs := by
  refine ⟨rfl, rfl, ?_⟩
  simp [workerSends]

/-- C8: the Command Executor hands each Command received from the
command channel to exactly one freshly spawned worker, in order — the
spawn trace is the received sequence itself, so each enqueued Command
occurrence is executed exactly once, never duplicated and never
dropped. -/
theorem command_executor_exactly_once [DecidableEq κ] (cmds : List κ) (c : κ) :
    commandExecutor cmds = cmds.map ExecEvent.spawnWorker ∧
    (commandExecutor cmds).countP (fun e => e = ExecEvent.spawnWorker c) =
      cmds.countP (fun x => x = c) := by
  constructor
  · induction cmds with
    | nil => rfl
    | cons d cmds ih => simp [commandExecutor, ih]
  · induction cmds with
    | nil => rfl
    | cons d cmds ih =>
      by_cases hdc : d = c
      · simp [commandExecutor, List.countP_cons, hdc, ih]
      · simp [commandExecutor, List.countP_cons, hdc, ih,
          fun h => hdc (ExecEvent.spawnWorker.inj h)]

/-- True unless the event is an update invocation handed a control
message: the property that update only ever observes non-control
Messages. -/
def Event.updateArgNonControl : Event σ μ κ → Bool
  | Event.callUpdate _ m => m.isUser
  | _ => true

theorem runLoop_updateArgNonControl (app : App σ μ κ) (msgs : List (Msg μ κ)) :
    ∀ s : σ, ((runLoop app s msgs).1).all Event.updateArgNonControl = true := by
  induction msgs with
  | nil => intro s; rfl
  | cons m rest ih =>
    intro s
    cases m with
    | quit => rfl
    | batch cs =>
      rw [runLoop_batch]
      have hcs : (cs.map Event.enqueueCmd : List (Event σ μ κ)).all
          Event.updateArgNonControl = true := by
        induction cs with
        | nil => rfl
        | cons d cs ihc => simp [Event.updateArgNonControl, ihc]
      simp [List.all_append, hcs, ih s, Event.updateArgNonControl]
    | user u =>
      rcases hu : app.update s (Msg.user u) with ⟨s1, co⟩
      rw [runLoop_user app s s1 u co hu]
      cases co <;>
        simp [enqOpt, Event.updateArgNonControl, Msg.isUser, ih s1]

/-- C9: in any run, every invocation of the application's update step is
handed a non-control Message — the Quit sentinel and the Batch message
are intercepted by the Dispatcher before the update branch. -/
theorem dispatcher_update_never_sees_control (app : App σ μ κ) (s0 : σ)
    (msgs : List (Msg μ κ)) :
    (runTrace app s0 msgs).all Event.updateArgNonControl = true := by
  have h1 : (initPhase app s0).all Event.updateArgNonControl = true := by
    cases h : app.init s0 <;> simp [initPhase, h, enqOpt, Event.updateArgNonControl]
  rw [runTrace, List.all_append, h1]
  simp [Event.updateArgNonControl, runLoop_updateArgNonControl app msgs s0]

/-- C10: whenever run returns at all (the loop broke on a Quit message),
the returned value is `Except.ok ()` — the runtime itself never produces
the error branch of the io result type. -/
theorem run_normal_return_ok (ε : Type) (app : App σ μ κ) (s0 : σ)
    (msgs : List (Msg μ κ)) (r : Except ε Unit)
    (h : runResult ε app s0 msgs = some r) : r = Except.ok () := by
  rw [runResult] at h
  cases ho : (runLoop app s0 msgs).2 with
  | none => rw [ho] at h; simp at h
  | some u => rw [ho] at h; simp at h; exact h.symm

/-- Witness for C10 at a concrete application and message sequence. -/
theorem run_normal_return_ok_witness :
    (Except.ok () : Except Unit Unit) = Except.ok () :=
  run_normal_return_ok Unit testApp 0 [Msg.quit] (Except.ok ()) rfl
